import Mathlib

/-!
Verification of the loop-calling pipeline of `hicexplorer/hicDetectLoops.py`.

The development shallowly embeds the numerically interesting core of the
program: the candidate screening step of `compute_long_range_contacts`,
the per-diagonal z-score normalization of `compute_zscore_matrix`, the
post-Mann-Whitney stages of `candidate_uniform_distribution_test`
(cluster collapse, Benjamini-Hochberg style FDR cutoff, coordinate
canonicalization, duplicate suppression) and the neighborhood extraction
of the tester.

Sparse matrices are represented by their list of stored entries, in the
row-major order in which scipy's `csr_matrix.nonzero()` and `.data`
expose them.  Machine floats are modelled by `ℚ` where the program only
compares and sorts, and by `Option ℝ` for the z-score computation, where
`none` stands for a non-finite float (NaN); the square root forces `ℝ`
there.  The Mann-Whitney test and `np.random.uniform` live outside the
embedding: the stages after them are functions of the test's outcomes.
-/

namespace HicDetectLoops

/-- A stored entry of a sparse contact matrix (scipy CSR): coordinates and a
rational value, in the order `nonzero()` / `.data` expose them. -/
structure Entry where
  row : Nat
  col : Nat
  val : ℚ
deriving DecidableEq, Repr

/-- Coordinates of a stored entry. -/
def coords (e : Entry) : Nat × Nat := (e.row, e.col)

/-- `csr_matrix.eliminate_zeros()` (hicDetectLoops.py line 141): drop the
explicitly stored zero entries. -/
def eliminate_zeros (m : List Entry) : List Entry :=
  m.filter (fun e => decide (e.val ≠ 0))

/-- numpy boolean-mask selection `a[mask]` over parallel arrays. -/
def maskFilter {α : Type} (l : List α) (mask : List Bool) : List α :=
  ((l.zip mask).filter (fun p => p.2)).map Prod.fst

/-- Lines 148–154: `mask = (data >= zT)` on the z-score data array combined by
`np.logical_and` with `mask_interactions = raw.data > pit` on the raw matrix's
data array, element by element over the two parallel arrays. -/
def screenMask (z raw : List Entry) (zT pit : ℚ) : List Bool :=
  ((eliminate_zeros z).zip raw).map
    (fun p => decide (p.1.val ≥ zT) && decide (p.2.val > pit))

/-- The candidate screening of `compute_long_range_contacts` (lines 140–163):
eliminate zeros from the z-score matrix, mask its entries by
`z-score ≥ zT` and `raw count > pit` at the same data index, and return the
kept `(instance, feature)` coordinate pairs.  `np.logical_and` raises a
broadcast error when the two data arrays have different lengths, modelled by
`none`. -/
def screenCandidates (z raw : List Entry) (zT pit : ℚ) : Option (List (Nat × Nat)) :=
  if (eliminate_zeros z).length = raw.length then
    some (maskFilter ((eliminate_zeros z).map coords) (screenMask z raw zT pit))
  else none

/-- The stored value of a sparse matrix at position `(r, c)`: the first stored
entry with those coordinates, `0` when absent. -/
def rawValueAt (raw : List Entry) (r c : Nat) : ℚ :=
  ((raw.find? (fun e => decide (e.row = r) && decide (e.col = c))).map Entry.val).getD 0

theorem maskFilter_nil {α : Type} (mask : List Bool) : maskFilter ([] : List α) mask = [] := rfl

theorem maskFilter_cons {α : Type} (x : α) (xs : List α) (m : Bool) (ms : List Bool) :
    maskFilter (x :: xs) (m :: ms) =
      if m then x :: maskFilter xs ms else maskFilter xs ms := by
  cases m <;> simp [maskFilter]

theorem maskFilter_subset {α : Type} (l : List α) (mask : List Bool) :
    maskFilter l mask ⊆ l := by
  induction l generalizing mask with
  | nil => simp [maskFilter]
  | cons x xs ih =>
    cases mask with
    | nil => simp [maskFilter]
    | cons m ms =>
      rw [maskFilter_cons]
      cases m with
      | false => simpa using List.Subset.trans (ih ms) (List.subset_cons_self _ _)
      | true => simpa using List.cons_subset_cons x (ih ms)

/-- The index-aligned screening mask evaluates both conditions at a single
coordinate pair: membership in the kept candidates is equivalent to the
z-score condition at an entry together with the raw-count condition at the
same `(row, col)` position, provided the two matrices expose the same
coordinate pattern (in order) and the pattern has no duplicate coordinates. -/
theorem screen_mem_iff (zT pit : ℚ) :
    ∀ (zl raw : List Entry), zl.map coords = raw.map coords →
      (raw.map coords).Nodup →
      ∀ e ∈ zl,
        ((e.row, e.col) ∈ maskFilter (zl.map coords)
            ((zl.zip raw).map (fun p => decide (p.1.val ≥ zT) && decide (p.2.val > pit))) ↔
          zT ≤ e.val ∧ pit < rawValueAt raw e.row e.col) := by
  intro zl
  induction zl with
  | nil => intro raw _ _ e he; simp at he
  | cons a zs ih =>
    intro raw hpat hnodup e he
    cases raw with
    | nil => simp at hpat
    | cons b rs =>
      simp only [List.map_cons, List.cons.injEq] at hpat
      obtain ⟨hab, hpat'⟩ := hpat
      simp only [List.map_cons, List.nodup_cons] at hnodup
      obtain ⟨hbnotin, hnodup'⟩ := hnodup
      have hrowcol : a.row = b.row ∧ a.col = b.col := by
        constructor
        · exact congrArg Prod.fst hab
        · exact congrArg Prod.snd hab
      rcases List.mem_cons.mp he with rfl | hezs
      · -- the head entry: the head of the mask decides it
        rw [List.zip_cons_cons, List.map_cons, List.map_cons, maskFilter_cons]
        have hnotrest : (e.row, e.col) ∉ maskFilter (zs.map coords)
            ((zs.zip rs).map (fun p => decide (p.1.val ≥ zT) && decide (p.2.val > pit))) := by
          intro hmem
          have : (e.row, e.col) ∈ zs.map coords := maskFilter_subset _ _ hmem
          rw [hpat'] at this
          have : coords b ∈ rs.map coords := by
            have hcoords : coords b = (e.row, e.col) := by
              simp [coords, hrowcol.1, hrowcol.2]
            rw [hcoords]; exact this
          exact hbnotin this
        have hfind : rawValueAt (b :: rs) e.row e.col = b.val := by
          unfold rawValueAt
          rw [List.find?_cons_of_pos]
          · rfl
          · simp [hrowcol.1, hrowcol.2]
        rw [hfind]
        by_cases hz : zT ≤ e.val
        · by_cases hr : pit < b.val
          · simp [ge_iff_le, hz, hr, coords]
          · simp [ge_iff_le, hz, hr, hnotrest]
        · simp [ge_iff_le, hz, hnotrest]
      · -- a tail entry: the head coordinate differs, recurse
        have hecoords : coords e ∈ rs.map coords := by
          rw [← hpat']; exact List.mem_map_of_mem coords hezs
        have hne : coords b ≠ coords e := by
          intro hcon; rw [hcon] at hbnotin; exact hbnotin hecoords
        rw [List.zip_cons_cons, List.map_cons, List.map_cons, maskFilter_cons]
        have hfind : rawValueAt (b :: rs) e.row e.col = rawValueAt rs e.row e.col := by
          unfold rawValueAt
          rw [List.find?_cons_of_neg]
          simp only [Bool.and_eq_true, decide_eq_true_eq, not_and]
          intro hrow hcol
          exact absurd (by simp [coords, hrow, hcol]) hne
        rw [hfind]
        have hmemrest := ih rs hpat' hnodup' e hezs
        have hheadne : coords a ≠ (e.row, e.col) := by
          rw [hab]; intro hcon
          exact hne (by simpa [coords] using hcon)
        cases hmask : (decide (a.val ≥ zT) && decide (b.val > pit)) with
        | false => simpa using hmemrest
        | true =>
          simp only [eq_self_iff_true, if_true, List.mem_cons]
          constructor
          · rintro (h | h)
            · exact absurd h.symm hheadne
            · exact hmemrest.mp h
          · intro h
            right; exact hmemrest.mpr h

/-- C1: for every stored nonzero position of the z-score matrix, the screener
keeps it as a candidate iff its z-score is at least `zT` and the raw contact
count at the identical `(row, col)` position is strictly greater than `pit`;
stated under the spec's data-model invariant that the z-score matrix (after
`eliminate_zeros`) and the raw matrix expose the same duplicate-free
coordinate pattern. -/
theorem C1_screener_keep_iff (z raw : List Entry) (zT pit : ℚ)
    (hpat : (eliminate_zeros z).map coords = raw.map coords)
    (hnodup : (raw.map coords).Nodup) :
    ∃ l, screenCandidates z raw zT pit = some l ∧
      ∀ e ∈ eliminate_zeros z,
        ((e.row, e.col) ∈ l ↔ zT ≤ e.val ∧ pit < rawValueAt raw e.row e.col) := by
  have hlen : (eliminate_zeros z).length = raw.length := by
    have := congrArg List.length hpat
    simpa using this
  refine ⟨maskFilter ((eliminate_zeros z).map coords) (screenMask z raw zT pit), ?_, ?_⟩
  · simp [screenCandidates, hlen]
  · intro e he
    exact screen_mem_iff zT pit (eliminate_zeros z) raw hpat hnodup e he

/-- Witness for C1 at a concrete pair of matrices: the z-score matrix
`[(0,1) ↦ 9, (2,3) ↦ 1]` against the raw matrix `[(0,1) ↦ 20, (2,3) ↦ 50]`
with thresholds 8 and 10. -/
theorem C1_screener_keep_iff_witness :
    ∃ l, screenCandidates
        [⟨0, 1, 9⟩, ⟨2, 3, 1⟩] [⟨0, 1, 20⟩, ⟨2, 3, 50⟩] 8 10 = some l ∧
      ∀ e ∈ eliminate_zeros [⟨0, 1, 9⟩, ⟨2, 3, 1⟩],
        ((e.row, e.col) ∈ l ↔ 8 ≤ e.val ∧ 10 < rawValueAt [⟨0, 1, 20⟩, ⟨2, 3, 50⟩] e.row e.col) :=
  C1_screener_keep_iff [⟨0, 1, 9⟩, ⟨2, 3, 1⟩] [⟨0, 1, 20⟩, ⟨2, 3, 50⟩] 8 10
    (by decide) (by decide)

theorem maskFilter_map_pred (pred : Entry × Entry → Bool) :
    ∀ (zl raw : List Entry),
      maskFilter (zl.map coords) ((zl.zip raw).map pred) =
        ((zl.zip raw).filter pred).map (fun p => coords p.1) := by
  intro zl
  induction zl with
  | nil => intro raw; simp [maskFilter]
  | cons a zs ih =>
    intro raw
    cases raw with
    | nil => simp [maskFilter]
    | cons b rs =>
      rw [List.zip_cons_cons, List.map_cons, List.map_cons, maskFilter_cons,
        List.filter_cons]
      cases hp : pred (a, b) <;> simp [ih rs]

/-- C9: raising the z-score threshold never enlarges the screened candidate
set — at the higher threshold the candidate list is a sublist (hence a subset,
and never longer) of the list at the lower threshold. -/
theorem C9_screen_threshold_monotone (z raw : List Entry) (pit t1 t2 : ℚ)
    (h : t1 ≤ t2) (l1 l2 : List (Nat × Nat))
    (h1 : screenCandidates z raw t1 pit = some l1)
    (h2 : screenCandidates z raw t2 pit = some l2) :
    l2.Sublist l1 ∧ l2.length ≤ l1.length ∧ ∀ c ∈ l2, c ∈ l1 := by
  unfold screenCandidates at h1 h2
  by_cases hlen : (eliminate_zeros z).length = raw.length
  · rw [if_pos hlen] at h1 h2
    have e1 : l1 = maskFilter ((eliminate_zeros z).map coords) (screenMask z raw t1 pit) :=
      (Option.some.injEq _ _ ▸ h1).symm
    have e2 : l2 = maskFilter ((eliminate_zeros z).map coords) (screenMask z raw t2 pit) :=
      (Option.some.injEq _ _ ▸ h2).symm
    rw [e1, e2]
    unfold screenMask
    rw [maskFilter_map_pred, maskFilter_map_pred]
    have hsub : (((eliminate_zeros z).zip raw).filter
          (fun p => decide (p.1.val ≥ t2) && decide (p.2.val > pit))).Sublist
        (((eliminate_zeros z).zip raw).filter
          (fun p => decide (p.1.val ≥ t1) && decide (p.2.val > pit))) := by
      apply List.monotone_filter_right
      intro p hp
      simp only [Bool.and_eq_true, decide_eq_true_eq, ge_iff_le] at hp ⊢
      exact ⟨le_trans h hp.1, hp.2⟩
    have hmap := hsub.map (fun p => coords p.1)
    exact ⟨hmap, hmap.length_le, fun c hc => hmap.subset hc⟩
  · rw [if_neg hlen] at h1
    exact absurd h1 (by simp)

/-- Witness for C9 at concrete matrices and thresholds 5 ≤ 8. -/
theorem C9_screen_threshold_monotone_witness :
    (([(0, 1)] : List (Nat × Nat)).Sublist [(0, 1), (2, 3)] ∧
      ([(0, 1)] : List (Nat × Nat)).length ≤ [(0, 1), (2, 3)].length ∧
      ∀ c ∈ ([(0, 1)] : List (Nat × Nat)), c ∈ [(0, 1), (2, 3)]) :=
  C9_screen_threshold_monotone [⟨0, 1, 9⟩, ⟨2, 3, 6⟩] [⟨0, 1, 20⟩, ⟨2, 3, 50⟩] 10 5 8
    (by norm_num) [(0, 1), (2, 3)] [(0, 1)] (by decide) (by decide)

/-! ### Spatial deduplication: the cluster-collapse loop (lines 243–258)

The loop walks the DBSCAN labels together with the surviving p-values,
keeps every noise point (label −1), and per cluster keeps the running
first-encountered minimum, retroactively clearing the mask bit of a
deposed previous winner.  The Python dict is an association list whose
most recent binding is found first. -/

/-- Lines 243–258: build the survivor mask from `(cluster label, p-value)`
pairs.  `i` is the index of the next pair, `mask` the bits built so far,
`dict` the cluster → (index, p-value) mapping with the newest binding in
front. -/
def clusterMaskAux : List (Int × ℚ) → Nat → List Bool → List (Int × Nat × ℚ) → List Bool
  | [], _, mask, _ => mask
  | (c, p) :: rest, i, mask, dict =>
    if c = -1 then clusterMaskAux rest (i + 1) (mask ++ [true]) dict
    else
      match dict.find? (fun e => decide (e.1 = c)) with
      | some (_, j, pj) =>
        if p < pj then
          clusterMaskAux rest (i + 1) ((mask.set j false) ++ [true]) ((c, i, p) :: dict)
        else clusterMaskAux rest (i + 1) (mask ++ [false]) dict
      | none => clusterMaskAux rest (i + 1) (mask ++ [true]) ((c, i, p) :: dict)

/-- The survivor mask of the cluster-collapse loop over the
`(cluster label, p-value)` pairs of the candidates, in scan order. -/
def clusterMask (l : List (Int × ℚ)) : List Bool := clusterMaskAux l 0 [] []

/-- Position `i` (holding `cp`) is the first-encountered member of its cluster
attaining the minimal p-value: every earlier member of the same cluster has a
strictly larger p-value, every later one an equal or larger one. -/
def clusterCond (l : List (Int × ℚ)) (i : Nat) (cp : Int × ℚ) : Prop :=
  ∀ j dq, l[j]? = some dq → dq.1 = cp.1 →
    (j < i → cp.2 < dq.2) ∧ (i < j → cp.2 ≤ dq.2)

/-- The specified survivor rule: a noise point (label −1) is always kept; a
clustered point is kept iff it is the first-encountered minimum of its
cluster. -/
def keepSpec (l : List (Int × ℚ)) (i : Nat) (cp : Int × ℚ) : Prop :=
  cp.1 = -1 ∨ clusterCond l i cp

theorem clusterCond_append {P : List (Int × ℚ)} {x : Int × ℚ} {j : Nat} {cp : Int × ℚ}
    (hj : j < P.length) :
    clusterCond (P ++ [x]) j cp ↔ clusterCond P j cp ∧ (x.1 = cp.1 → cp.2 ≤ x.2) := by
  constructor
  · intro h
    refine ⟨?_, ?_⟩
    · intro k dq hk hcl
      have hklen : k < P.length := (List.getElem?_eq_some.mp hk).1
      exact h k dq (by rw [List.getElem?_append_left hklen]; exact hk) hcl
    · intro hx
      have := h P.length x (List.getElem?_concat_length P x) hx
      exact this.2 hj
  · rintro ⟨h, hx⟩ k dq hk hcl
    by_cases hklen : k < P.length
    · rw [List.getElem?_append_left hklen] at hk
      exact h k dq hk hcl
    · have hlen2 : k < P.length + 1 := by
        have := (List.getElem?_eq_some.mp hk).1
        simpa using this
      have hkeq : k = P.length := by omega
      subst hkeq
      rw [List.getElem?_concat_length] at hk
      have hdq : dq = x := by
        have := Option.some.inj hk
        exact this.symm
      subst hdq
      constructor
      · intro hlt; omega
      · intro _; exact hx hcl

theorem clusterCond_append_self {P : List (Int × ℚ)} {x : Int × ℚ} :
    clusterCond (P ++ [x]) P.length x ↔
      ∀ (j : Nat) (dq : Int × ℚ), P[j]? = some dq → dq.1 = x.1 → x.2 < dq.2 := by
  constructor
  · intro h j dq hj hcl
    have hjlen : j < P.length := (List.getElem?_eq_some.mp hj).1
    have := h j dq (by rw [List.getElem?_append_left hjlen]; exact hj) hcl
    exact this.1 hjlen
  · intro h k dq hk hcl
    by_cases hklen : k < P.length
    · rw [List.getElem?_append_left hklen] at hk
      exact ⟨fun _ => h k dq hk hcl, fun hgt => absurd hklen (by omega)⟩
    · constructor
      · intro hlt; omega
      · intro hgt
        have hb : k < P.length + 1 := by
          have := (List.getElem?_eq_some.mp hk).1
          simpa using this
        omega

theorem getElem?_append_singleton_cases {α : Type} {P : List α} {x : α} {j : Nat} {v : α}
    (h : (P ++ [x])[j]? = some v) :
    (j < P.length ∧ P[j]? = some v) ∨ (j = P.length ∧ v = x) := by
  by_cases hj : j < P.length
  · left
    refine ⟨hj, ?_⟩
    rw [List.getElem?_append_left hj] at h
    exact h
  · right
    have hb : j < P.length + 1 := by
      have := (List.getElem?_eq_some.mp h).1
      simpa using this
    have hje : j = P.length := by omega
    subst hje
    rw [List.getElem?_concat_length] at h
    exact ⟨rfl, (Option.some.inj h).symm⟩

theorem clusterCond_unique {P : List (Int × ℚ)} {j k : Nat} {cp dq : Int × ℚ}
    (hj : P[j]? = some cp) (hk : P[k]? = some dq) (hcl : dq.1 = cp.1)
    (h1 : clusterCond P j cp) (h2 : clusterCond P k dq) : j = k := by
  by_contra hne
  rcases lt_or_gt_of_ne hne with hlt | hgt
  · have hle : cp.2 ≤ dq.2 := (h1 k dq hk hcl).2 hlt
    have hlt2 : dq.2 < cp.2 := (h2 j cp hj hcl.symm).1 hlt
    exact absurd (lt_of_le_of_lt hle hlt2) (lt_irrefl _)
  · have hle : dq.2 ≤ cp.2 := (h2 j cp hj hcl.symm).2 hgt
    have hlt2 : cp.2 < dq.2 := (h1 k dq hk hcl).1 hgt
    exact absurd (lt_of_le_of_lt hle hlt2) (lt_irrefl _)

theorem keepSpec_append_iff {P : List (Int × ℚ)} {x cp : Int × ℚ} {j : Nat}
    (hj : j < P.length) (hx : x.1 = cp.1 → cp.2 ≤ x.2) :
    keepSpec (P ++ [x]) j cp ↔ keepSpec P j cp := by
  unfold keepSpec
  rw [clusterCond_append hj]
  constructor
  · rintro (h | h)
    · exact Or.inl h
    · exact Or.inr h.1
  · rintro (h | h)
    · exact Or.inl h
    · exact Or.inr ⟨h, hx⟩

theorem keepSpec_false_of_other_winner {P : List (Int × ℚ)} {j k : Nat} {cp dq : Int × ℚ}
    (hj : P[j]? = some cp) (hk : P[k]? = some dq) (hcl : dq.1 = cp.1) (hne : j ≠ k)
    (hcp1 : cp.1 ≠ -1) (hW : clusterCond P k dq) : ¬ keepSpec P j cp := by
  rintro (h | h)
  · exact hcp1 h
  · exact hne (clusterCond_unique hj hk hcl h hW)

/-- The two invariants the cluster-collapse loop maintains: the mask built so
far characterizes the survivors of the processed prefix, and the dictionary's
first binding for every cluster is the prefix's current winner. -/
def MaskInv (P : List (Int × ℚ)) (mask : List Bool) : Prop :=
  mask.length = P.length ∧
    ∀ j cp, P[j]? = some cp → (mask[j]? = some true ↔ keepSpec P j cp)

def DictInv (P : List (Int × ℚ)) (dict : List (Int × Nat × ℚ)) : Prop :=
  (∀ e ∈ dict, e.1 ≠ -1) ∧
  (∀ (c : Int) (e : Int × Nat × ℚ), dict.find? (fun y => decide (y.1 = c)) = some e →
      P[e.2.1]? = some (c, e.2.2) ∧ clusterCond P e.2.1 (c, e.2.2)) ∧
  (∀ c : Int, c ≠ -1 → dict.find? (fun y => decide (y.1 = c)) = none →
      ∀ (j : Nat) (dq : Int × ℚ), P[j]? = some dq → dq.1 ≠ c)

theorem clusterMaskAux_spec :
    ∀ (R P : List (Int × ℚ)) (mask : List Bool) (dict : List (Int × Nat × ℚ)),
      MaskInv P mask → DictInv P dict →
      MaskInv (P ++ R) (clusterMaskAux R P.length mask dict) := by
  intro R
  induction R with
  | nil =>
    intro P mask dict hM _
    simpa [clusterMaskAux] using hM
  | cons hd R ih =>
    intro P mask dict hM hD
    obtain ⟨c, p⟩ := hd
    obtain ⟨hlen, hmask⟩ := hM
    obtain ⟨hDent, hDwin, hDnone⟩ := hD
    have happ : P ++ (c, p) :: R = (P ++ [(c, p)]) ++ R := by simp
    have hplen : (P ++ [(c, p)]).length = P.length + 1 := by simp
    rw [happ]
    simp only [clusterMaskAux]
    by_cases hc : c = -1
    · -- noise: keep, dict unchanged
      rw [if_pos hc]
      have hM' : MaskInv (P ++ [(c, p)]) (mask ++ [true]) := by
        refine ⟨by simp [hlen], ?_⟩
        intro j cp hj
        rcases getElem?_append_singleton_cases hj with ⟨hjlt, hPj⟩ | ⟨hje, hcp⟩
        · rw [List.getElem?_append_left (by rw [hlen]; exact hjlt)]
          by_cases hcp1 : cp.1 = -1
          · constructor
            · intro _; exact Or.inl hcp1
            · intro _; exact (hmask j cp hPj).mpr (Or.inl hcp1)
          · have hx : (c, p).1 = cp.1 → cp.2 ≤ (c, p).2 := by
              intro hxc
              exact absurd (hxc.symm.trans hc) hcp1
            rw [keepSpec_append_iff hjlt hx]
            exact hmask j cp hPj
        · subst hje
          subst hcp
          have hnew : (mask ++ [true])[P.length]? = some true := by
            rw [← hlen]; exact List.getElem?_concat_length mask true
          exact ⟨fun _ => Or.inl hc, fun _ => hnew⟩
      have hD' : DictInv (P ++ [(c, p)]) dict := by
        refine ⟨hDent, ?_, ?_⟩
        · intro c' e hf
          obtain ⟨hPe, hCe⟩ := hDwin c' e hf
          have hb : e.2.1 < P.length := (List.getElem?_eq_some.mp hPe).1
          have hcne : c' ≠ -1 := by
            have hmem := List.mem_of_find?_eq_some hf
            have he1 : e.1 = c' := by simpa using List.find?_some hf
            exact he1 ▸ hDent e hmem
          refine ⟨by rw [List.getElem?_append_left hb]; exact hPe, ?_⟩
          refine (clusterCond_append hb).mpr ⟨hCe, ?_⟩
          intro hxc
          exact absurd (hxc.symm.trans hc) hcne
        · intro c' hc' hf j dq hj
          rcases getElem?_append_singleton_cases hj with ⟨hjlt, hPj⟩ | ⟨_, hdq⟩
          · exact hDnone c' hc' hf j dq hPj
          · subst hdq
            exact fun h => hc' (h ▸ hc)
      rw [← hplen]
      exact ih _ _ _ hM' hD'
    · rw [if_neg hc]
      rcases hf : dict.find? (fun e => decide (e.1 = c)) with _ | e
      · -- unseen cluster: insert as winner, keep
        simp only [hf]
        have hno : ∀ (j : Nat) (dq : Int × ℚ), P[j]? = some dq → dq.1 ≠ c :=
          hDnone c hc hf
        have hM' : MaskInv (P ++ [(c, p)]) (mask ++ [true]) := by
          refine ⟨by simp [hlen], ?_⟩
          intro j cp hj
          rcases getElem?_append_singleton_cases hj with ⟨hjlt, hPj⟩ | ⟨hje, hcp⟩
          · rw [List.getElem?_append_left (by rw [hlen]; exact hjlt)]
            by_cases hcp1 : cp.1 = -1
            · exact ⟨fun _ => Or.inl hcp1, fun _ => (hmask j cp hPj).mpr (Or.inl hcp1)⟩
            · have hx : (c, p).1 = cp.1 → cp.2 ≤ (c, p).2 := by
                intro hxc
                exact absurd hxc.symm (hno j cp hPj)
              rw [keepSpec_append_iff hjlt hx]
              exact hmask j cp hPj
          · subst hje
            subst hcp
            have hnew : (mask ++ [true])[P.length]? = some true := by
              rw [← hlen]; exact List.getElem?_concat_length mask true
            refine ⟨fun _ => Or.inr ?_, fun _ => hnew⟩
            refine clusterCond_append_self.mpr ?_
            intro j dq hj hcl
            exact absurd hcl (hno j dq hj)
        have hD' : DictInv (P ++ [(c, p)]) ((c, P.length, p) :: dict) := by
          refine ⟨?_, ?_, ?_⟩
          · intro e he
            rcases List.mem_cons.mp he with rfl | he'
            · exact hc
            · exact hDent e he'
          · intro c' e hf'
            by_cases hcc : c = c'
            · subst hcc
              rw [List.find?_cons_of_pos _ (by simp)] at hf'
              have he : e = (c, P.length, p) := (Option.some.inj hf').symm
              subst he
              refine ⟨by rw [List.getElem?_concat_length], ?_⟩
              refine clusterCond_append_self.mpr ?_
              intro j dq hj hcl
              exact absurd hcl (hno j dq hj)
            · rw [List.find?_cons_of_neg _ (by simpa using hcc)] at hf'
              obtain ⟨hPe, hCe⟩ := hDwin c' e hf'
              have hb : e.2.1 < P.length := (List.getElem?_eq_some.mp hPe).1
              refine ⟨by rw [List.getElem?_append_left hb]; exact hPe, ?_⟩
              refine (clusterCond_append hb).mpr ⟨hCe, ?_⟩
              intro hxc
              exact absurd hxc hcc
          · intro c' hc' hf' j dq hj
            have hcc : c ≠ c' := by
              intro hcon
              subst hcon
              rw [List.find?_cons_of_pos _ (by simp)] at hf'
              exact Option.noConfusion hf'
            rw [List.find?_cons_of_neg _ (by simpa using hcc)] at hf'
            rcases getElem?_append_singleton_cases hj with ⟨hjlt, hPj⟩ | ⟨_, hdq⟩
            · exact hDnone c' hc' hf' j dq hPj
            · subst hdq
              exact fun h => hcc h
        rw [← hplen]
        exact ih _ _ _ hM' hD'
      · -- seen cluster: e is the dict entry (c, winner index, winner p-value)
        obtain ⟨e1, j0, p0⟩ := e
        simp only [hf]
        obtain ⟨hPj0, hC0⟩ := hDwin c (e1, j0, p0) hf
        simp only at hPj0 hC0
        have hj0 : j0 < P.length := (List.getElem?_eq_some.mp hPj0).1
        have hmin : ∀ (j : Nat) (dq : Int × ℚ), P[j]? = some dq → dq.1 = c → p0 ≤ dq.2 := by
          intro j dq hj hcl
          rcases lt_trichotomy j j0 with h | h | h
          · exact le_of_lt ((hC0 j dq hj hcl).1 h)
          · subst h
            rw [hPj0] at hj
            have hdq : dq = (c, p0) := (Option.some.inj hj).symm
            subst hdq
            exact le_rfl
          · exact (hC0 j dq hj hcl).2 h
        by_cases hpp : p < p0
        · -- depose the previous winner
          rw [if_pos hpp]
          have hM' : MaskInv (P ++ [(c, p)]) ((mask.set j0 false) ++ [true]) := by
            refine ⟨by simp [hlen], ?_⟩
            intro j cp hj
            rcases getElem?_append_singleton_cases hj with ⟨hjlt, hPj⟩ | ⟨hje, hcp⟩
            · rw [List.getElem?_append_left (by rw [List.length_set, hlen]; exact hjlt)]
              by_cases hjj0 : j = j0
              · subst hjj0
                have hcp : cp = (c, p0) := by
                  rw [hPj0] at hPj
                  exact (Option.some.inj hPj).symm
                subst hcp
                rw [List.getElem?_set_eq (by rw [hlen]; exact hjlt)]
                constructor
                · intro h
                  exact absurd h (by simp)
                · rintro (h | h)
                  · exact absurd h hc
                  · have := ((clusterCond_append hjlt).mp h).2
                    exact absurd (this rfl) (not_le.mpr hpp)
              · rw [List.getElem?_set_ne (fun h => hjj0 h.symm)]
                by_cases hcp1 : cp.1 = -1
                · exact ⟨fun _ => Or.inl hcp1, fun _ => (hmask j cp hPj).mpr (Or.inl hcp1)⟩
                · by_cases hcpc : cp.1 = c
                  · have hold : ¬ keepSpec P j cp :=
                      keepSpec_false_of_other_winner hPj hPj0 (by simpa using hcpc.symm)
                        hjj0 hcp1 hC0
                    have hnewf : ¬ keepSpec (P ++ [(c, p)]) j cp := by
                      rintro (h | h)
                      · exact hcp1 h
                      · exact hold (Or.inr ((clusterCond_append hjlt).mp h).1)
                    constructor
                    · intro h
                      exact absurd ((hmask j cp hPj).mp h) hold
                    · intro h
                      exact absurd h hnewf
                  · have hx : (c, p).1 = cp.1 → cp.2 ≤ (c, p).2 := by
                      intro hxc
                      exact absurd hxc.symm hcpc
                    rw [keepSpec_append_iff hjlt hx]
                    exact hmask j cp hPj
            · subst hje
              subst hcp
              have hnew : ((mask.set j0 false) ++ [true])[P.length]? = some true := by
                have : (mask.set j0 false).length = P.length := by
                  rw [List.length_set, hlen]
                rw [← this]
                exact List.getElem?_concat_length _ true
              refine ⟨fun _ => Or.inr ?_, fun _ => hnew⟩
              refine clusterCond_append_self.mpr ?_
              intro j dq hj hcl
              exact lt_of_lt_of_le hpp (hmin j dq hj hcl)
          have hD' : DictInv (P ++ [(c, p)]) ((c, P.length, p) :: dict) := by
            refine ⟨?_, ?_, ?_⟩
            · intro e he
              rcases List.mem_cons.mp he with rfl | he'
              · exact hc
              · exact hDent e he'
            · intro c' e hf'
              by_cases hcc : c = c'
              · subst hcc
                rw [List.find?_cons_of_pos _ (by simp)] at hf'
                have he : e = (c, P.length, p) := (Option.some.inj hf').symm
                subst he
                refine ⟨by rw [List.getElem?_concat_length], ?_⟩
                refine clusterCond_append_self.mpr ?_
                intro j dq hj hcl
                exact lt_of_lt_of_le hpp (hmin j dq hj hcl)
              · rw [List.find?_cons_of_neg _ (by simpa using hcc)] at hf'
                obtain ⟨hPe, hCe⟩ := hDwin c' e hf'
                have hb : e.2.1 < P.length := (List.getElem?_eq_some.mp hPe).1
                refine ⟨by rw [List.getElem?_append_left hb]; exact hPe, ?_⟩
                refine (clusterCond_append hb).mpr ⟨hCe, ?_⟩
                intro hxc
                exact absurd hxc hcc
            · intro c' hc' hf' j dq hj
              have hcc : c ≠ c' := by
                intro hcon
                subst hcon
                rw [List.find?_cons_of_pos _ (by simp)] at hf'
                exact Option.noConfusion hf'
              rw [List.find?_cons_of_neg _ (by simpa using hcc)] at hf'
              rcases getElem?_append_singleton_cases hj with ⟨hjlt, hPj⟩ | ⟨_, hdq⟩
              · exact hDnone c' hc' hf' j dq hPj
              · subst hdq
                exact fun h => hcc h
          rw [← hplen]
          exact ih _ _ _ hM' hD'
        · -- the previous winner stays
          rw [if_neg hpp]
          have hM' : MaskInv (P ++ [(c, p)]) (mask ++ [false]) := by
            refine ⟨by simp [hlen], ?_⟩
            intro j cp hj
            rcases getElem?_append_singleton_cases hj with ⟨hjlt, hPj⟩ | ⟨hje, hcp⟩
            · rw [List.getElem?_append_left (by rw [hlen]; exact hjlt)]
              by_cases hcp1 : cp.1 = -1
              · exact ⟨fun _ => Or.inl hcp1, fun _ => (hmask j cp hPj).mpr (Or.inl hcp1)⟩
              · by_cases hcpc : cp.1 = c
                · by_cases hjj0 : j = j0
                  · subst hjj0
                    have hcp : cp = (c, p0) := by
                      rw [hPj0] at hPj
                      exact (Option.some.inj hPj).symm
                    subst hcp
                    have holdT : keepSpec P j (c, p0) := Or.inr hC0
                    have hnewT : keepSpec (P ++ [(c, p)]) j (c, p0) := by
                      refine Or.inr ((clusterCond_append hjlt).mpr ⟨hC0, ?_⟩)
                      intro _
                      exact not_lt.mp hpp
                    exact ⟨fun _ => hnewT, fun _ => (hmask j (c, p0) hPj0).mpr holdT⟩
                  · have hold : ¬ keepSpec P j cp :=
                      keepSpec_false_of_other_winner hPj hPj0 (by simpa using hcpc.symm)
                        hjj0 hcp1 hC0
                    have hnewf : ¬ keepSpec (P ++ [(c, p)]) j cp := by
                      rintro (h | h)
                      · exact hcp1 h
                      · exact hold (Or.inr ((clusterCond_append hjlt).mp h).1)
                    exact ⟨fun h => absurd ((hmask j cp hPj).mp h) hold,
                      fun h => absurd h hnewf⟩
                · have hx : (c, p).1 = cp.1 → cp.2 ≤ (c, p).2 := by
                    intro hxc
                    exact absurd hxc.symm hcpc
                  rw [keepSpec_append_iff hjlt hx]
                  exact hmask j cp hPj
            · subst hje
              subst hcp
              have hnew : (mask ++ [false])[P.length]? = some false := by
                rw [← hlen]; exact List.getElem?_concat_length mask false
              rw [hnew]
              constructor
              · intro h
                exact absurd h (by simp)
              · rintro (h | h)
                · exact absurd h hc
                · have := clusterCond_append_self.mp h j0 (c, p0) hPj0 rfl
                  exact absurd this (not_lt.mpr (not_lt.mp hpp))
          have hD' : DictInv (P ++ [(c, p)]) dict := by
            refine ⟨hDent, ?_, ?_⟩
            · intro c' e hf'
              obtain ⟨hPe, hCe⟩ := hDwin c' e hf'
              have hb : e.2.1 < P.length := (List.getElem?_eq_some.mp hPe).1
              refine ⟨by rw [List.getElem?_append_left hb]; exact hPe, ?_⟩
              refine (clusterCond_append hb).mpr ⟨hCe, ?_⟩
              intro hxc
              by_cases hcc : c = c'
              · subst hcc
                rw [hf] at hf'
                have he : e = (e1, j0, p0) := Option.some.inj hf'.symm
                subst he
                exact not_lt.mp hpp
              · exact absurd hxc hcc
            · intro c' hc' hf' j dq hj
              have hcc : c ≠ c' := by
                intro hcon
                subst hcon
                rw [hf] at hf'
                exact Option.noConfusion hf'
              rcases getElem?_append_singleton_cases hj with ⟨hjlt, hPj⟩ | ⟨_, hdq⟩
              · exact hDnone c' hc' hf' j dq hPj
              · subst hdq
                exact fun h => hcc h
          rw [← hplen]
          exact ih _ _ _ hM' hD'

/-- C7: after DBSCAN labelling (labels and p-values in scan order), the
cluster-collapse loop keeps exactly the noise points (label −1) and, per
non-noise cluster, the single first-encountered member attaining the minimal
p-value; every other member of that cluster is dropped. -/
theorem C7_cluster_collapse (l : List (Int × ℚ)) :
    (clusterMask l).length = l.length ∧
      ∀ (i : Nat) (cp : Int × ℚ), l[i]? = some cp →
        ((clusterMask l)[i]? = some true ↔ keepSpec l i cp) := by
  have hM : MaskInv ([] : List (Int × ℚ)) [] := by
    refine ⟨rfl, ?_⟩
    intro j cp h
    simp at h
  have hD : DictInv ([] : List (Int × ℚ)) [] := by
    refine ⟨?_, ?_, ?_⟩
    · intro e he; simp at he
    · intro c e hf; simp at hf
    · intro c _ _ j dq hj; simp at hj
  have h := clusterMaskAux_spec l [] [] [] hM hD
  unfold MaskInv at h
  simpa [clusterMask] using h

/-- Sanity check of the embedding of the cluster-collapse loop on a hand-run
input: two clusters and one noise point; cluster 0's minimum appears at
index 2 (ties broken to the earlier index), cluster 1's at index 5. -/
theorem clusterMask_example :
    clusterMask [(0, mkRat 1 2), (-1, mkRat 9 10), (0, mkRat 3 10), (1, mkRat 1 5),
        (0, mkRat 3 10), (1, mkRat 1 10)] =
      [false, true, true, false, false, true] := by decide

/-! ### FDR controller (lines 266–283) and the trailing dedup steps (284–307) -/

/-- Line 268: `np.sort`, ascending.  An ascending sort of a list over a
linear order is unique, so insertion sort models `np.sort` exactly. -/
def sortedPs (ps : List ℚ) : List ℚ := ps.insertionSort (fun a b => a ≤ b)

/-- Lines 270–274: the scan for `largest_p_i`, starting at `-np.inf` (`⊥` of
`WithBot ℚ`), over the ascending-sorted p-values with 0-based index `i`: a
value replaces the running one when `p ≤ q·(i+1)/m` and `p ≥ largest_p_i`. -/
def fdrLoop (q : ℚ) (m : Nat) : List ℚ → Nat → WithBot ℚ → WithBot ℚ
  | [], _, acc => acc
  | p :: rest, i, acc =>
      fdrLoop q m rest (i + 1)
        (if p ≤ q * ((i : ℚ) + 1) / (m : ℚ) ∧ acc ≤ (p : WithBot ℚ) then (p : WithBot ℚ)
          else acc)

/-- `largest_p_i` of lines 267–274.  The NaN replacement of line 267 is the
identity here: p-values reaching this stage were NaN-filtered at line 214. -/
def fdrThreshold (ps : List ℚ) (q : ℚ) : WithBot ℚ :=
  fdrLoop q ps.length (sortedPs ps) 0 ⊥

/-- Lines 277–280: keep the candidates (with their p-values) whose p-value is
strictly below the threshold. -/
def fdrAcceptedAux (thr : WithBot ℚ) : List ((Nat × Nat) × ℚ) → List (Nat × Nat) × List ℚ
  | [] => ([], [])
  | cp :: rest =>
    let r := fdrAcceptedAux thr rest
    if (cp.2 : WithBot ℚ) < thr then (cp.1 :: r.1, cp.2 :: r.2) else r

/-- The FDR acceptance step: candidates and p-values kept by lines 277–280. -/
def fdrAccepted (cands : List (Nat × Nat)) (ps : List ℚ) (q : ℚ) :
    List (Nat × Nat) × List ℚ :=
  fdrAcceptedAux (fdrThreshold ps q) (cands.zip ps)

/-- The Benjamini-Hochberg qualifying values, following the spec's words: the
ascending-sorted p-values `p_(i)` (1-based index `i`) satisfying
`p_(i) ≤ q·i/m`, where `m` is the number of surviving p-values. -/
def bhQualifying (ps : List ℚ) (q : ℚ) : List ℚ :=
  ((sortedPs ps).enum.filter
    (fun ip => decide (ip.2 ≤ q * ((ip.1 : ℚ) + 1) / (ps.length : ℚ)))).map Prod.snd

/-- One step of a running maximum over `WithBot ℚ`. -/
def botMaxStep (a : WithBot ℚ) (p : ℚ) : WithBot ℚ := max a (p : WithBot ℚ)

theorem foldl_max_eq_max_maximum (l : List ℚ) :
    ∀ acc : WithBot ℚ, l.foldl botMaxStep acc = max acc l.maximum := by
  induction l with
  | nil =>
    intro acc
    simp [List.maximum_nil]
  | cons a l ih =>
    intro acc
    rw [List.foldl_cons, ih, List.maximum_cons, botMaxStep, max_assoc]

theorem fdrLoop_eq_foldl (q : ℚ) (m : Nat) :
    ∀ (l : List ℚ) (i : Nat) (acc : WithBot ℚ),
      fdrLoop q m l i acc =
        (((l.enumFrom i).filter
            (fun ip => decide (ip.2 ≤ q * ((ip.1 : ℚ) + 1) / (m : ℚ)))).map Prod.snd).foldl
          botMaxStep acc := by
  intro l
  induction l with
  | nil =>
    intro i acc
    simp [fdrLoop]
  | cons p rest ih =>
    intro i acc
    rw [fdrLoop, List.enumFrom_cons, List.filter_cons]
    by_cases hcond : p ≤ q * ((i : ℚ) + 1) / (m : ℚ)
    · have hsel : (if p ≤ q * ((i : ℚ) + 1) / (m : ℚ) ∧ acc ≤ (p : WithBot ℚ)
          then (p : WithBot ℚ) else acc) = max acc (p : WithBot ℚ) := by
        by_cases hle : acc ≤ (p : WithBot ℚ)
        · rw [if_pos ⟨hcond, hle⟩, max_eq_right hle]
        · rw [if_neg (fun h => hle h.2), max_eq_left (le_of_not_le hle)]
      rw [hsel, ih (i + 1) (max acc (p : WithBot ℚ))]
      rw [if_pos (by simpa using hcond), List.map_cons, List.foldl_cons]
      rfl
    · have hsel : (if p ≤ q * ((i : ℚ) + 1) / (m : ℚ) ∧ acc ≤ (p : WithBot ℚ)
          then (p : WithBot ℚ) else acc) = acc := by
        rw [if_neg (fun h => hcond h.1)]
      rw [hsel, ih (i + 1) acc, if_neg (by simpa using hcond)]

theorem fdrThreshold_eq_maximum (ps : List ℚ) (q : ℚ) :
    fdrThreshold ps q = (bhQualifying ps q).maximum := by
  unfold fdrThreshold bhQualifying
  rw [fdrLoop_eq_foldl, foldl_max_eq_max_maximum]
  have henum : (sortedPs ps).enum = (sortedPs ps).enumFrom 0 := rfl
  rw [henum]
  exact max_eq_right bot_le

theorem fdrAcceptedAux_eq_filter (thr : WithBot ℚ) :
    ∀ l : List ((Nat × Nat) × ℚ),
      fdrAcceptedAux thr l =
        ((l.filter (fun cp => decide ((cp.2 : WithBot ℚ) < thr))).map Prod.fst,
          (l.filter (fun cp => decide ((cp.2 : WithBot ℚ) < thr))).map Prod.snd) := by
  intro l
  induction l with
  | nil => rfl
  | cons cp rest ih =>
    rw [List.filter_cons]
    by_cases h : (cp.2 : WithBot ℚ) < thr
    · simp [fdrAcceptedAux, ih, h]
    · simp [fdrAcceptedAux, ih, h]

/-- C3: the FDR controller's threshold `p*` is the largest ascending-sorted
p-value satisfying `p_(i) ≤ q·i/m` (the maximum of the qualifying values, `⊥`
i.e. −∞ when none qualifies); the acceptance step keeps exactly the
candidates with p-value strictly below `p*` (never one equal to it), and when
no index qualifies nothing is accepted. -/
theorem C3_fdr_controller (cands : List (Nat × Nat)) (ps : List ℚ) (q : ℚ) :
    fdrThreshold ps q = (bhQualifying ps q).maximum
  ∧ (∀ x ∈ bhQualifying ps q, (x : WithBot ℚ) ≤ fdrThreshold ps q)
  ∧ (fdrAccepted cands ps q).1 =
      ((cands.zip ps).filter
        (fun cp => decide ((cp.2 : WithBot ℚ) < fdrThreshold ps q))).map Prod.fst
  ∧ (fdrAccepted cands ps q).2 =
      ((cands.zip ps).filter
        (fun cp => decide ((cp.2 : WithBot ℚ) < fdrThreshold ps q))).map Prod.snd
  ∧ (∀ p ∈ (fdrAccepted cands ps q).2,
        (p : WithBot ℚ) < fdrThreshold ps q ∧ (p : WithBot ℚ) ≠ fdrThreshold ps q)
  ∧ (bhQualifying ps q = [] → fdrAccepted cands ps q = ([], [])) := by
  have hmax := fdrThreshold_eq_maximum ps q
  have hacc := fdrAcceptedAux_eq_filter (fdrThreshold ps q) (cands.zip ps)
  refine ⟨hmax, ?_, ?_, ?_, ?_, ?_⟩
  · intro x hx
    rw [hmax]
    exact List.le_maximum_of_mem' hx
  · rw [fdrAccepted, hacc]
  · rw [fdrAccepted, hacc]
  · intro p hp
    rw [fdrAccepted, hacc] at hp
    simp only [List.mem_map] at hp
    obtain ⟨cp, hcp, hsnd⟩ := hp
    have := List.of_mem_filter hcp
    simp only [decide_eq_true_eq] at this
    subst hsnd
    exact ⟨this, ne_of_lt this⟩
  · intro hempty
    rw [fdrAccepted, hacc]
    have hbot : fdrThreshold ps q = ⊥ := by
      rw [hmax, hempty, List.maximum_nil]
    have : ∀ cp ∈ cands.zip ps, ¬ ((cp.2 : WithBot ℚ) < fdrThreshold ps q) := by
      intro cp _
      rw [hbot]
      exact fun h => absurd h (by simp)
    rw [List.filter_eq_nil.mpr (by intro cp hcp; simpa using this cp hcp)]
    simp

theorem fdrLoop_cons_pos {q : ℚ} {m : Nat} {p : ℚ} {rest : List ℚ} {i : Nat}
    {acc : WithBot ℚ} (h1 : p ≤ q * ((i : ℚ) + 1) / (m : ℚ))
    (h2 : acc ≤ (p : WithBot ℚ)) :
    fdrLoop q m (p :: rest) i acc = fdrLoop q m rest (i + 1) (p : WithBot ℚ) := by
  rw [fdrLoop, if_pos ⟨h1, h2⟩]

theorem fdrLoop_cons_neg {q : ℚ} {m : Nat} {p : ℚ} {rest : List ℚ} {i : Nat}
    {acc : WithBot ℚ} (h1 : ¬ p ≤ q * ((i : ℚ) + 1) / (m : ℚ)) :
    fdrLoop q m (p :: rest) i acc = fdrLoop q m rest (i + 1) acc := by
  rw [fdrLoop, if_neg (fun h => h1 h.1)]

/-- Sanity check of the FDR threshold embedding: with m = 3 and q = 1/20 the
cutoffs are 1/60, 1/30, 1/20; only 1/100 ≤ 1/60 qualifies, so
`largest_p_i = 1/100`. -/
theorem fdrThreshold_example :
    fdrThreshold [mkRat 1 100, mkRat 1 25, mkRat 9 10] (mkRat 1 20) =
      ((mkRat 1 100 : ℚ) : WithBot ℚ) := by
  have hs : sortedPs [mkRat 1 100, mkRat 1 25, mkRat 9 10] =
      [mkRat 1 100, mkRat 1 25, mkRat 9 10] := by decide
  unfold fdrThreshold
  rw [hs]
  rw [fdrLoop_cons_pos (by rw [Rat.mkRat_eq_div, Rat.mkRat_eq_div]; norm_num) bot_le]
  rw [fdrLoop_cons_neg (by rw [Rat.mkRat_eq_div, Rat.mkRat_eq_div]; norm_num)]
  rw [fdrLoop_cons_neg (by rw [Rat.mkRat_eq_div, Rat.mkRat_eq_div]; norm_num)]
  rw [fdrLoop]

/-- Lines 285–289: canonicalize a candidate by swapping its coordinates so
that the first is not larger than the second. -/
def swapCanon (c : Nat × Nat) : Nat × Nat := if c.1 > c.2 then (c.2, c.1) else c

/-- Lines 290–299: collect `delete_index`: a candidate's index is recorded
when both its first coordinate was already seen as a first coordinate and its
second as a second coordinate of an earlier kept candidate; otherwise its
coordinates are added to the two seen-sets. -/
def dupDeleteIdx : List (Nat × Nat) → Nat → List Nat → List Nat → List Nat
  | [], _, _, _ => []
  | c :: rest, i, sx, sy =>
    if c.1 ∈ sx ∧ c.2 ∈ sy then i :: dupDeleteIdx rest (i + 1) sx sy
    else dupDeleteIdx rest (i + 1) (c.1 :: sx) (c.2 :: sy)

/-- `np.delete(a, idx)` (lines 301–305): drop the positions listed in `idx`. -/
def removeIndices {α : Type} (l : List α) (idx : List Nat) : List α :=
  (l.enum.filter (fun ip => decide (ip.1 ∉ idx))).map Prod.snd

/-- Lines 266–307: the FDR cutoff and acceptance over the candidates
surviving the cluster collapse, the `No loops detected` signal when nothing
is accepted, then coordinate canonicalization and duplicate suppression on
the accepted list. -/
def fdrStage (cands : List (Nat × Nat)) (ps : List ℚ) (q : ℚ) :
    Option (List (Nat × Nat) × List ℚ) :=
  let acc := fdrAccepted cands ps q
  if acc.1.isEmpty then none
  else
    let swapped := acc.1.map swapCanon
    let del := dupDeleteIdx swapped 0 [] []
    some (removeIndices swapped del, removeIndices acc.2 del)

/-- Lines 224–307 of `candidate_uniform_distribution_test` after the
Mann-Whitney loop: its inputs are the candidates that survived the test, the
p-values kept in step with them, and the DBSCAN labels computed for them.
The cluster-collapse mask is applied to candidates and p-values, then the
FDR stage runs, then canonicalization and duplicate suppression. -/
def candidate_uniform_distribution_test (cands : List (Nat × Nat)) (ps : List ℚ)
    (clusters : List Int) (q : ℚ) : Option (List (Nat × Nat) × List ℚ) :=
  let mask := clusterMask (clusters.zip ps)
  fdrStage (maskFilter cands mask) (maskFilter ps mask) q

/-- The Mann-Whitney stage boundary (lines 232–242): the candidates kept by
the test's mask are handed to `euclidean_distances` and `dbscan`, which
reject an empty input (`ValueError: Found array with 0 sample(s)` from
scikit-learn's input validation); there is no emptiness check in between.
The test outcomes (mask, p-values) and the DBSCAN labels are parameters. -/
def candidateTestFull (pCandidates : List (Nat × Nat)) (mwKeep : List Bool)
    (mwPvalues : List ℚ) (clusters : List Int) (q : ℚ) :
    Except String (Option (List (Nat × Nat) × List ℚ)) :=
  let cands := maskFilter pCandidates mwKeep
  if cands.isEmpty then
    Except.error "ValueError: Found array with 0 sample(s)"
  else Except.ok (candidate_uniform_distribution_test cands mwPvalues clusters q)

theorem bhQualifying_subset (ps : List ℚ) (q : ℚ) :
    ∀ x ∈ bhQualifying ps q, x ∈ ps := by
  intro x hx
  unfold bhQualifying at hx
  obtain ⟨ip, hip, hsnd⟩ := List.mem_map.mp hx
  have hmem : ip ∈ (sortedPs ps).enum := List.mem_of_mem_filter hip
  have hip2 : ip.2 ∈ sortedPs ps := by
    obtain ⟨ifst, isnd⟩ := ip
    obtain ⟨_, _, h3⟩ := List.mem_enumFrom hmem
    rw [h3]
    exact List.getElem_mem _
  rw [hsnd] at hip2
  exact (List.perm_insertionSort (fun a b => a ≤ b) ps).mem_iff.mp hip2

/-- C10: when every surviving (post-dedup) p-value equals one common value,
the FDR acceptance accepts nothing — acceptance needs a p-value strictly
below the threshold, and the threshold is either that common value or −∞ —
so the stage returns the `No loops detected` signal `none`, however small
the common p-value is. -/
theorem C10_equal_pvalues_no_loops (cands : List (Nat × Nat)) (ps : List ℚ)
    (q : ℚ) (p0 : ℚ) (hne : ps ≠ []) (hall : ∀ p ∈ ps, p = p0) :
    (fdrAccepted cands ps q).1 = [] ∧ fdrStage cands ps q = none := by
  have hthr : fdrThreshold ps q ≤ (p0 : WithBot ℚ) := by
    rw [fdrThreshold_eq_maximum]
    cases hm : (bhQualifying ps q).maximum with
    | bot => exact bot_le
    | coe m =>
      have hmem : m ∈ bhQualifying ps q := List.maximum_mem hm
      have : m = p0 := hall m (bhQualifying_subset ps q m hmem)
      subst this
      exact le_refl _
  have hnolt : ∀ cp ∈ cands.zip ps, ¬ ((cp.2 : WithBot ℚ) < fdrThreshold ps q) := by
    intro cp hcp hlt
    have hmem : cp.2 ∈ ps := (List.mem_zip hcp).2
    have : cp.2 = p0 := hall cp.2 hmem
    rw [this] at hlt
    exact absurd (lt_of_lt_of_le hlt hthr) (lt_irrefl _)
  have hfilter : (cands.zip ps).filter
      (fun cp => decide ((cp.2 : WithBot ℚ) < fdrThreshold ps q)) = [] := by
    apply List.filter_eq_nil.mpr
    intro cp hcp
    simpa using hnolt cp hcp
  have hacc1 : (fdrAccepted cands ps q).1 = [] := by
    rw [fdrAccepted, fdrAcceptedAux_eq_filter, hfilter]
    rfl
  refine ⟨hacc1, ?_⟩
  unfold fdrStage
  simp only [hacc1]
  rfl

/-- Witness for C10: three candidates all with p-value 1/1000 at target FDR
1/20 — nothing is accepted and the stage signals `none`. -/
theorem C10_equal_pvalues_no_loops_witness :
    (fdrAccepted [(0, 5), (1, 7), (2, 9)]
      [mkRat 1 1000, mkRat 1 1000, mkRat 1 1000] (mkRat 1 20)).1 = [] ∧
      fdrStage [(0, 5), (1, 7), (2, 9)]
        [mkRat 1 1000, mkRat 1 1000, mkRat 1 1000] (mkRat 1 20) = none :=
  C10_equal_pvalues_no_loops [(0, 5), (1, 7), (2, 9)]
    [mkRat 1 1000, mkRat 1 1000, mkRat 1 1000] (mkRat 1 20) (mkRat 1 1000)
    (by decide) (by decide)

/-- C2 (code bug): when candidates exist after screening but every one of
them is rejected by the Mann-Whitney stage (here: one candidate whose test
outcome is rejection), the empty surviving array reaches
`euclidean_distances`/`dbscan`, which raise `ValueError` on zero samples —
the pipeline aborts instead of returning the `No loops detected` signal. -/
theorem C2_empty_after_test_raises :
    candidateTestFull [(3, 7)] [false] [] [] (mkRat 1 20) =
      Except.error "ValueError: Found array with 0 sample(s)" := rfl

/-- One-pass form of the duplicate-suppression scan over candidate/p-value
pairs: a pair is dropped when both its first coordinate was seen as a first
coordinate and its second as a second coordinate of an earlier kept pair;
otherwise it is kept and its coordinates recorded. -/
def dupScanP : List ((Nat × Nat) × ℚ) → List Nat → List Nat → List ((Nat × Nat) × ℚ)
  | [], _, _ => []
  | cp :: rest, sx, sy =>
    if cp.1.1 ∈ sx ∧ cp.1.2 ∈ sy then dupScanP rest sx sy
    else cp :: dupScanP rest (cp.1.1 :: sx) (cp.1.2 :: sy)

theorem dupDeleteIdx_ge :
    ∀ (l : List (Nat × Nat)) (i : Nat) (sx sy : List Nat),
      ∀ j ∈ dupDeleteIdx l i sx sy, i ≤ j := by
  intro l
  induction l with
  | nil => intro i sx sy j hj; simp [dupDeleteIdx] at hj
  | cons c rest ih =>
    intro i sx sy j hj
    rw [dupDeleteIdx] at hj
    by_cases hdup : c.1 ∈ sx ∧ c.2 ∈ sy
    · rw [if_pos hdup] at hj
      rcases List.mem_cons.mp hj with rfl | hj'
      · exact le_refl _
      · exact le_trans (Nat.le_succ _) (ih (i + 1) sx sy j hj')
    · rw [if_neg hdup] at hj
      exact le_trans (Nat.le_succ _) (ih (i + 1) _ _ j hj)

theorem remove_dup_eq :
    ∀ (l : List (Nat × Nat)) (ps : List ℚ) (i : Nat) (sx sy : List Nat),
      l.length = ps.length →
      (((l.enumFrom i).filter
          (fun ipp => decide (ipp.1 ∉ dupDeleteIdx l i sx sy))).map Prod.snd
        = (dupScanP (l.zip ps) sx sy).map Prod.fst)
      ∧ (((ps.enumFrom i).filter
          (fun ipp => decide (ipp.1 ∉ dupDeleteIdx l i sx sy))).map Prod.snd
        = (dupScanP (l.zip ps) sx sy).map Prod.snd) := by
  intro l
  induction l with
  | nil =>
    intro ps i sx sy hlen
    have : ps = [] := List.eq_nil_of_length_eq_zero hlen.symm
    subst this
    simp [dupDeleteIdx, dupScanP]
  | cons c rest ih =>
    intro ps i sx sy hlen
    cases ps with
    | nil => simp at hlen
    | cons pv prest =>
      have hlen' : rest.length = prest.length := by simpa using hlen
      rw [List.zip_cons_cons, List.enumFrom_cons, List.enumFrom_cons, dupDeleteIdx,
        dupScanP]
      by_cases hdup : c.1 ∈ sx ∧ c.2 ∈ sy
      · rw [if_pos hdup, if_pos hdup]
        obtain ⟨ih1, ih2⟩ := ih prest (i + 1) sx sy hlen'
        constructor
        · rw [List.filter_cons, if_neg (by simp)]
          rw [← ih1]
          congr 1
          apply List.filter_congr
          intro ipp hipp
          have hb := (List.mem_enumFrom hipp).1
          simp only [List.mem_cons, not_or]
          rw [decide_eq_decide]
          constructor
          · exact fun h => h.2
          · exact fun h => ⟨by omega, h⟩
        · rw [List.filter_cons, if_neg (by simp)]
          rw [← ih2]
          congr 1
          apply List.filter_congr
          intro ipp hipp
          have hb := (List.mem_enumFrom hipp).1
          simp only [List.mem_cons, not_or]
          rw [decide_eq_decide]
          constructor
          · exact fun h => h.2
          · exact fun h => ⟨by omega, h⟩
      · rw [if_neg hdup, if_neg hdup]
        have hge := dupDeleteIdx_ge rest (i + 1) (c.1 :: sx) (c.2 :: sy)
        obtain ⟨ih1, ih2⟩ := ih prest (i + 1) (c.1 :: sx) (c.2 :: sy) hlen'
        constructor
        · rw [List.filter_cons, if_pos (by
            refine decide_eq_true ?_
            intro hcon
            have := hge i hcon
            omega)]
          rw [List.map_cons]
          exact List.cons_eq_cons.mpr ⟨rfl, ih1⟩
        · rw [List.filter_cons, if_pos (by
            refine decide_eq_true ?_
            intro hcon
            have := hge i hcon
            omega)]
          rw [List.map_cons]
          exact List.cons_eq_cons.mpr ⟨rfl, ih2⟩

/-- The amended control flow of lines 239–307: cluster collapse first, then
the FDR cutoff and acceptance over the collapsed list — so the
Benjamini-Hochberg count `m` is the post-collapse count — and only then, on
the accepted list, coordinate canonicalization and the duplicate-suppression
scan. -/
def amendedOrderTest (cands : List (Nat × Nat)) (ps : List ℚ)
    (clusters : List Int) (q : ℚ) : Option (List (Nat × Nat) × List ℚ) :=
  let mask := clusterMask (clusters.zip ps)
  let acc := fdrAccepted (maskFilter cands mask) (maskFilter ps mask) q
  if acc.1 = [] then none
  else
    let kept := dupScanP ((acc.1.map swapCanon).zip acc.2) [] []
    some (kept.map Prod.fst, kept.map Prod.snd)

/-- The control flow stated by the spec (refinement-comparison definition,
following the spec's words): the Spatial Deduplicator runs all four steps —
cluster collapse, coordinate canonicalization, duplicate suppression — to
completion and only then is the Benjamini-Hochberg procedure applied, with
`m` the fully deduplicated count. -/
def specOrderTest (cands : List (Nat × Nat)) (ps : List ℚ)
    (clusters : List Int) (q : ℚ) : Option (List (Nat × Nat) × List ℚ) :=
  let mask := clusterMask (clusters.zip ps)
  let kept := dupScanP
    (((maskFilter cands mask).map swapCanon).zip (maskFilter ps mask)) [] []
  let acc := fdrAccepted (kept.map Prod.fst) (kept.map Prod.snd) q
  if acc.1 = [] then none else some acc

theorem fdrAccepted_length (cands : List (Nat × Nat)) (ps : List ℚ) (q : ℚ) :
    (fdrAccepted cands ps q).1.length = (fdrAccepted cands ps q).2.length := by
  rw [fdrAccepted, fdrAcceptedAux_eq_filter]
  simp

theorem fdrStage_eq_amended (cands : List (Nat × Nat)) (ps : List ℚ) (q : ℚ) :
    fdrStage cands ps q =
      (if (fdrAccepted cands ps q).1 = [] then none
        else
          some ((dupScanP (((fdrAccepted cands ps q).1.map swapCanon).zip
              (fdrAccepted cands ps q).2) [] []).map Prod.fst,
            (dupScanP (((fdrAccepted cands ps q).1.map swapCanon).zip
              (fdrAccepted cands ps q).2) [] []).map Prod.snd)) := by
  unfold fdrStage
  by_cases hempty : (fdrAccepted cands ps q).1 = []
  · rw [if_pos hempty]
    simp [hempty]
  · rw [if_neg hempty]
    have hiso : (fdrAccepted cands ps q).1.isEmpty = false := by
      cases hl : (fdrAccepted cands ps q).1 with
      | nil => exact absurd hl hempty
      | cons a l => rfl
    simp only [hiso, Bool.false_eq_true, if_false]
    have hlen : ((fdrAccepted cands ps q).1.map swapCanon).length =
        (fdrAccepted cands ps q).2.length := by
      rw [List.length_map]
      exact fdrAccepted_length cands ps q
    obtain ⟨h1, h2⟩ := remove_dup_eq ((fdrAccepted cands ps q).1.map swapCanon)
      (fdrAccepted cands ps q).2 0 [] [] hlen
    unfold removeIndices
    rw [Option.some.injEq]
    exact Prod.mk.injEq _ _ _ _ ▸ ⟨h1, h2⟩

/-- C5 (amended): `candidate_uniform_distribution_test` applies the
Benjamini-Hochberg cutoff right after the cluster-collapse step — `m` is the
post-collapse candidate count — and runs coordinate canonicalization and the
duplicate-suppression scan afterwards, on the FDR-accepted list only. -/
theorem C5_fdr_after_collapse_before_dup (cands : List (Nat × Nat)) (ps : List ℚ)
    (clusters : List Int) (q : ℚ) :
    candidate_uniform_distribution_test cands ps clusters q =
      amendedOrderTest cands ps clusters q := by
  unfold candidate_uniform_distribution_test amendedOrderTest
  exact fdrStage_eq_amended _ _ _

/-- C5 counterexample: on candidates (1,2), (3,4), (1,4) with p-values
1/100, 1/25, 9/10 (all DBSCAN noise) at q = 1/20, the code's order (FDR over
m = 3, duplicate suppression afterwards) accepts nothing and returns the
`No loops detected` signal, while the spec's order (duplicate suppression
first — dropping (1,4) — then FDR over m = 2) accepts (1,2).  The two control
flows are observably different, so BH is not applied to the list remaining
after all four deduplication steps. -/
theorem C5_counterexample :
    candidate_uniform_distribution_test [(1, 2), (3, 4), (1, 4)]
        [mkRat 1 100, mkRat 1 25, mkRat 9 10] [-1, -1, -1] (mkRat 1 20) = none
  ∧ specOrderTest [(1, 2), (3, 4), (1, 4)]
        [mkRat 1 100, mkRat 1 25, mkRat 9 10] [-1, -1, -1] (mkRat 1 20) =
      some ([(1, 2)], [mkRat 1 100])
  ∧ candidate_uniform_distribution_test [(1, 2), (3, 4), (1, 4)]
        [mkRat 1 100, mkRat 1 25, mkRat 9 10] [-1, -1, -1] (mkRat 1 20) ≠
      specOrderTest [(1, 2), (3, 4), (1, 4)]
        [mkRat 1 100, mkRat 1 25, mkRat 9 10] [-1, -1, -1] (mkRat 1 20) := by
  have hacc1 : fdrAccepted [(1, 2), (3, 4), (1, 4)]
      [mkRat 1 100, mkRat 1 25, mkRat 9 10] (mkRat 1 20) = ([], []) := by
    unfold fdrAccepted
    rw [fdrThreshold_example]
    decide
  have hthr2 : fdrThreshold [mkRat 1 100, mkRat 1 25] (mkRat 1 20) =
      ((mkRat 1 25 : ℚ) : WithBot ℚ) := by
    have hs : sortedPs [mkRat 1 100, mkRat 1 25] = [mkRat 1 100, mkRat 1 25] := by decide
    unfold fdrThreshold
    rw [hs]
    rw [fdrLoop_cons_pos (by rw [Rat.mkRat_eq_div, Rat.mkRat_eq_div]; norm_num) bot_le]
    rw [fdrLoop_cons_pos (by rw [Rat.mkRat_eq_div, Rat.mkRat_eq_div]; norm_num)
      (by exact WithBot.coe_le_coe.mpr (by decide))]
    rw [fdrLoop]
  have hacc2 : fdrAccepted [(1, 2), (3, 4)] [mkRat 1 100, mkRat 1 25] (mkRat 1 20) =
      ([(1, 2)], [mkRat 1 100]) := by
    unfold fdrAccepted
    rw [hthr2]
    decide
  have hA : candidate_uniform_distribution_test [(1, 2), (3, 4), (1, 4)]
      [mkRat 1 100, mkRat 1 25, mkRat 9 10] [-1, -1, -1] (mkRat 1 20) = none := by
    show fdrStage
      (maskFilter [(1, 2), (3, 4), (1, 4)]
        (clusterMask ([-1, -1, -1].zip [mkRat 1 100, mkRat 1 25, mkRat 9 10])))
      (maskFilter [mkRat 1 100, mkRat 1 25, mkRat 9 10]
        (clusterMask ([-1, -1, -1].zip [mkRat 1 100, mkRat 1 25, mkRat 9 10])))
      (mkRat 1 20) = none
    have hm1 : maskFilter [(1, 2), (3, 4), (1, 4)]
        (clusterMask ([-1, -1, -1].zip [mkRat 1 100, mkRat 1 25, mkRat 9 10])) =
        [(1, 2), (3, 4), (1, 4)] := by decide
    have hm2 : maskFilter [mkRat 1 100, mkRat 1 25, mkRat 9 10]
        (clusterMask ([-1, -1, -1].zip [mkRat 1 100, mkRat 1 25, mkRat 9 10])) =
        [mkRat 1 100, mkRat 1 25, mkRat 9 10] := by decide
    rw [hm1, hm2]
    unfold fdrStage
    simp [hacc1]
  have hB : specOrderTest [(1, 2), (3, 4), (1, 4)]
      [mkRat 1 100, mkRat 1 25, mkRat 9 10] [-1, -1, -1] (mkRat 1 20) =
      some ([(1, 2)], [mkRat 1 100]) := by
    show (if (fdrAccepted
        ((dupScanP
          (((maskFilter [(1, 2), (3, 4), (1, 4)]
              (clusterMask ([-1, -1, -1].zip
                [mkRat 1 100, mkRat 1 25, mkRat 9 10]))).map swapCanon).zip
            (maskFilter [mkRat 1 100, mkRat 1 25, mkRat 9 10]
              (clusterMask ([-1, -1, -1].zip
                [mkRat 1 100, mkRat 1 25, mkRat 9 10])))) [] []).map Prod.fst)
        ((dupScanP
          (((maskFilter [(1, 2), (3, 4), (1, 4)]
              (clusterMask ([-1, -1, -1].zip
                [mkRat 1 100, mkRat 1 25, mkRat 9 10]))).map swapCanon).zip
            (maskFilter [mkRat 1 100, mkRat 1 25, mkRat 9 10]
              (clusterMask ([-1, -1, -1].zip
                [mkRat 1 100, mkRat 1 25, mkRat 9 10])))) [] []).map Prod.snd)
        (mkRat 1 20)).1 = [] then none
      else some (fdrAccepted
        ((dupScanP
          (((maskFilter [(1, 2), (3, 4), (1, 4)]
              (clusterMask ([-1, -1, -1].zip
                [mkRat 1 100, mkRat 1 25, mkRat 9 10]))).map swapCanon).zip
            (maskFilter [mkRat 1 100, mkRat 1 25, mkRat 9 10]
              (clusterMask ([-1, -1, -1].zip
                [mkRat 1 100, mkRat 1 25, mkRat 9 10])))) [] []).map Prod.fst)
        ((dupScanP
          (((maskFilter [(1, 2), (3, 4), (1, 4)]
              (clusterMask ([-1, -1, -1].zip
                [mkRat 1 100, mkRat 1 25, mkRat 9 10]))).map swapCanon).zip
            (maskFilter [mkRat 1 100, mkRat 1 25, mkRat 9 10]
              (clusterMask ([-1, -1, -1].zip
                [mkRat 1 100, mkRat 1 25, mkRat 9 10])))) [] []).map Prod.snd)
        (mkRat 1 20))) = some ([(1, 2)], [mkRat 1 100])
    have hkept1 : (dupScanP
        (((maskFilter [(1, 2), (3, 4), (1, 4)]
            (clusterMask ([-1, -1, -1].zip
              [mkRat 1 100, mkRat 1 25, mkRat 9 10]))).map swapCanon).zip
          (maskFilter [mkRat 1 100, mkRat 1 25, mkRat 9 10]
            (clusterMask ([-1, -1, -1].zip
              [mkRat 1 100, mkRat 1 25, mkRat 9 10])))) [] []).map Prod.fst =
        [(1, 2), (3, 4)] := by decide
    have hkept2 : (dupScanP
        (((maskFilter [(1, 2), (3, 4), (1, 4)]
            (clusterMask ([-1, -1, -1].zip
              [mkRat 1 100, mkRat 1 25, mkRat 9 10]))).map swapCanon).zip
          (maskFilter [mkRat 1 100, mkRat 1 25, mkRat 9 10]
            (clusterMask ([-1, -1, -1].zip
              [mkRat 1 100, mkRat 1 25, mkRat 9 10])))) [] []).map Prod.snd =
        [mkRat 1 100, mkRat 1 25] := by decide
    rw [hkept1, hkept2, hacc2]
    simp
  exact ⟨hA, hB, by rw [hA, hB]; exact fun h => Option.noConfusion h⟩

/-! ### Neighborhood extraction of the tester (lines 187–199) -/

/-- Lines 189–199: the neighborhood sample of candidate `(x, y)` with window
size `w` over a dense view `m` of a matrix with `xMax` rows and `yMax`
columns.  Python's slice `matrix[start_x:end_x, start_y:end_y]` takes rows
`start_x ≤ i < end_x` — the upper bound is exclusive — flattened row-major;
the `if candidate − w > 0 else 0` clamping coincides with truncated
subtraction. -/
def neighborhood (m : Nat → Nat → ℚ) (x y w xMax yMax : Nat) : List ℚ :=
  let startX := if x - w > 0 then x - w else 0
  let endX := if x + w < xMax then x + w else xMax
  let startY := if y - w > 0 then y - w else 0
  let endY := if y + w < yMax then y + w else yMax
  ((List.range' startX (endX - startX)).map
    (fun i => (List.range' startY (endY - startY)).map (fun j => m i j))).flatten

/-- The neighborhood as the claim states it (comparison definition following
the spec's words): rows in the inclusive range `[x−w, x+w]` and columns in
the inclusive range `[y−w, y+w]`, each clamped to `[0, matrix dimension]`,
flattened row-major. -/
def specNeighborhoodInclusive (m : Nat → Nat → ℚ) (x y w xMax yMax : Nat) : List ℚ :=
  (((List.range (xMax + 1)).filter
      (fun i => decide (x - w ≤ i) && decide (i ≤ x + w))).map
    (fun i => ((List.range (yMax + 1)).filter
      (fun j => decide (y - w ≤ j) && decide (j ≤ y + w))).map (fun j => m i j))).flatten

/-- The neighborhood as the amended claim states it: rows in the half-open
range `[x−w, x+w)` — the upper end exclusive — intersected with the valid
row indices `[0, xMax)`, and likewise for columns, flattened row-major. -/
def specNeighborhoodHalfOpen (m : Nat → Nat → ℚ) (x y w xMax yMax : Nat) : List ℚ :=
  (((List.range xMax).filter
      (fun i => decide (x - w ≤ i) && decide (i < x + w))).map
    (fun i => ((List.range yMax).filter
      (fun j => decide (y - w ≤ j) && decide (j < y + w))).map (fun j => m i j))).flatten

theorem range_filter_eq_range' (s e : Nat) :
    ∀ n : Nat, (List.range n).filter (fun i => decide (s ≤ i) && decide (i < e)) =
      List.range' s (min e n - s) := by
  intro n
  induction n with
  | zero => simp
  | succ n ih =>
    rw [List.range_succ, List.filter_append, ih]
    by_cases he : e ≤ n
    · have h1 : min e (n + 1) = e := by omega
      have h2 : min e n = e := by omega
      rw [h1, h2]
      have : (List.filter (fun i => decide (s ≤ i) && decide (i < e)) [n]) = [] := by
        simp only [List.filter_cons, List.filter_nil]
        rw [if_neg (by simp; omega)]
      rw [this, List.append_nil]
    · have h2 : min e n = n := by omega
      rw [h2]
      by_cases hs : s ≤ n
      · have h1 : min e (n + 1) - s = (n - s) + 1 := by omega
        rw [h1, List.range'_concat]
        have hval : s + 1 * (n - s) = n := by omega
        rw [hval]
        congr 1
        simp only [List.filter_cons, List.filter_nil]
        rw [if_pos (by simp; omega)]
      · have h1 : min e (n + 1) - s = 0 := by omega
        have h3 : n - s = 0 := by omega
        rw [h1, h3]
        have : (List.filter (fun i => decide (s ≤ i) && decide (i < e)) [n]) = [] := by
          simp only [List.filter_cons, List.filter_nil]
          rw [if_neg (by simp; omega)]
        rw [this, List.append_nil]

/-- C6 (amended): the neighborhood handed to the Mann-Whitney test consists
of the entries with row in the half-open range `[x−w, x+w)` and column in
the half-open range `[y−w, y+w)`, both intersected with the valid index
ranges — row `x+w` and column `y+w` are excluded — flattened row-major. -/
theorem C6_neighborhood_half_open (m : Nat → Nat → ℚ) (x y w xMax yMax : Nat) :
    neighborhood m x y w xMax yMax = specNeighborhoodHalfOpen m x y w xMax yMax := by
  unfold neighborhood specNeighborhoodHalfOpen
  have hsx : (if x - w > 0 then x - w else 0) = x - w := by
    split <;> omega
  have hex : (if x + w < xMax then x + w else xMax) = min (x + w) xMax := by
    split <;> omega
  have hsy : (if y - w > 0 then y - w else 0) = y - w := by
    split <;> omega
  have hey : (if y + w < yMax then y + w else yMax) = min (y + w) yMax := by
    split <;> omega
  rw [hsx, hex, hsy, hey, range_filter_eq_range' (x - w) (x + w) xMax,
    range_filter_eq_range' (y - w) (y + w) yMax]

/-- C6 counterexample: a 10×10 matrix with pairwise distinct entries,
candidate (5, 5), window 2.  The computed sample has the 16 entries of rows
and columns 3..6, while the claim's inclusive ranges give the 25 entries of
rows and columns 3..7 — row 7 and column 7 are not sampled. -/
theorem C6_counterexample :
    (neighborhood (fun i j => ((10 * i + j : Nat) : ℚ)) 5 5 2 10 10).length = 16
  ∧ (specNeighborhoodInclusive (fun i j => ((10 * i + j : Nat) : ℚ)) 5 5 2 10 10).length = 25
  ∧ neighborhood (fun i j => ((10 * i + j : Nat) : ℚ)) 5 5 2 10 10 ≠
      specNeighborhoodInclusive (fun i j => ((10 * i + j : Nat) : ℚ)) 5 5 2 10 10 := by
  refine ⟨by decide, by decide, by decide⟩

/-! ### Diagonal normalizer: compute_zscore_matrix (lines 93–131)

Values are `Option ℝ`: `none` models a non-finite float — a NaN input value,
or the result of a division by zero.  The square root forces `ℝ`, so this
section is noncomputable; concrete instances are evaluated with `simp` and
`norm_num`. -/

/-- A stored entry of the matrix passed to the normalizer. -/
structure MEntry where
  row : Nat
  col : Nat
  val : Option ℝ

/-- Line 107: `distances = np.absolute(instances - features)`. -/
def entryDistance (e : MEntry) : Nat := max e.row e.col - min e.row e.col

/-- `np.nan_to_num` on one value (line 112): NaN becomes 0. -/
def nanToNum (v : Option ℝ) : ℝ := v.getD 0

/-- The stored entries at diagonal distance `d`. -/
def bucket (entries : List MEntry) (d : Nat) : List MEntry :=
  entries.filter (fun e => decide (entryDistance e = d))

/-- Lines 93–98 and 111–115: the per-distance sum of the NaN-cleaned values;
every distance's sum is initialized to 1 (`sum_per_distance = np.ones(...)`,
line 111). -/
noncomputable def sumPerDistance (entries : List MEntry) (d : Nat) : ℝ :=
  1 + ((bucket entries d).map (fun e => nanToNum e.val)).sum

/-- Lines 94–98: `distance_count` (initialized to 0). -/
def distanceCount (entries : List MEntry) (d : Nat) : Nat :=
  (bucket entries d).length

/-- Line 118: `mean_adjusted = sum_per_distance / distance_count`. -/
noncomputable def meanAdjusted (entries : List MEntry) (d : Nat) : ℝ :=
  sumPerDistance entries d / (distanceCount entries d : ℝ)

/-- Lines 120–124: per-distance mean of squared deviations of the
NaN-cleaned values. -/
noncomputable def sigma2 (entries : List MEntry) (d : Nat) : ℝ :=
  ((bucket entries d).map
    (fun e => (nanToNum e.val - meanAdjusted entries d) ^ 2)).sum /
    (distanceCount entries d : ℝ)

/-- Line 125: `sigma = np.sqrt(sigma_2)`. -/
noncomputable def sigma (entries : List MEntry) (d : Nat) : ℝ :=
  Real.sqrt (sigma2 entries d)

/-- Lines 127–129 for one entry: the numerator is the ORIGINAL stored value
`pMatrix.data[i]` — not the NaN-cleaned copy — so a NaN input propagates to
the output; a division by a zero sigma would produce a non-finite float,
modelled by `none`. -/
noncomputable def zscoreEntry (entries : List MEntry) (e : MEntry) : MEntry :=
  ⟨e.row, e.col,
    match e.val with
    | none => none
    | some v =>
      if sigma entries (entryDistance e) = 0 then none
      else some ((v - meanAdjusted entries (entryDistance e)) /
        sigma entries (entryDistance e))⟩

/-- Line 131: the output matrix keeps the input's stored positions, each
value replaced by its z-score. -/
noncomputable def compute_zscore_matrix (entries : List MEntry) : List MEntry :=
  entries.map (zscoreEntry entries)

/-- The finite z-score values stored at distance `d` of the output matrix. -/
noncomputable def zscoresAtDistance (entries : List MEntry) (d : Nat) : List ℝ :=
  ((compute_zscore_matrix entries).filter
    (fun e => decide (entryDistance e = d))).filterMap (fun e => e.val)

/-- Mean of a list of reals (empty list: 0/0 = 0). -/
noncomputable def listMean (l : List ℝ) : ℝ := l.sum / l.length

/-- Variance of a list of reals. -/
noncomputable def listVariance (l : List ℝ) : ℝ :=
  (l.map (fun x => (x - listMean l) ^ 2)).sum / l.length

theorem list_sum_map_sub {α : Type} (l : List α) (f : α → ℝ) (c : ℝ) :
    (l.map (fun a => f a - c)).sum = (l.map f).sum - l.length * c := by
  induction l with
  | nil => simp
  | cons a l ih =>
    simp only [List.map_cons, List.sum_cons, ih, List.length_cons]
    push_cast
    ring

theorem list_sum_map_div {α : Type} (l : List α) (f : α → ℝ) (c : ℝ) :
    (l.map (fun a => f a / c)).sum = (l.map f).sum / c := by
  induction l with
  | nil => simp
  | cons a l ih =>
    simp only [List.map_cons, List.sum_cons, ih]
    ring

/-- The bucket's deviations from the adjusted mean sum to −1: the bucket sum
was initialized to 1, so `k·mean_d = 1 + Σ values`. -/
theorem sum_dev_eq_neg_one (entries : List MEntry) (d : Nat)
    (hd : distanceCount entries d ≠ 0) :
    ((bucket entries d).map
      (fun e => nanToNum e.val - meanAdjusted entries d)).sum = -1 := by
  rw [list_sum_map_sub]
  have hk : ((distanceCount entries d : ℕ) : ℝ) ≠ 0 := by exact_mod_cast hd
  unfold meanAdjusted
  rw [show ((bucket entries d).length : ℝ) = ((distanceCount entries d : ℕ) : ℝ) from rfl]
  rw [mul_div_cancel₀ _ hk]
  unfold sumPerDistance
  ring

theorem sigma2_pos (entries : List MEntry) (d : Nat)
    (hd : distanceCount entries d ≠ 0) : 0 < sigma2 entries d := by
  unfold sigma2
  have hkpos : (0 : ℝ) < ((distanceCount entries d : ℕ) : ℝ) := by
    have : 0 < distanceCount entries d := Nat.pos_of_ne_zero hd
    exact_mod_cast this
  apply div_pos ?_ hkpos
  have hnonneg : ∀ x ∈ (bucket entries d).map
      (fun e => (nanToNum e.val - meanAdjusted entries d) ^ 2), 0 ≤ x := by
    intro x hx
    obtain ⟨e, _, rfl⟩ := List.mem_map.mp hx
    exact sq_nonneg _
  rcases lt_or_eq_of_le (List.sum_nonneg hnonneg) with h | h
  · exact h
  · exfalso
    have hall : ∀ e ∈ bucket entries d, nanToNum e.val - meanAdjusted entries d = 0 := by
      intro e he
      have hmem : (nanToNum e.val - meanAdjusted entries d) ^ 2 ∈
          (bucket entries d).map (fun e => (nanToNum e.val - meanAdjusted entries d) ^ 2) :=
        List.mem_map_of_mem _ he
      have hle := List.single_le_sum hnonneg _ hmem
      rw [← h] at hle
      have hzero : (nanToNum e.val - meanAdjusted entries d) ^ 2 = 0 :=
        le_antisymm hle (sq_nonneg _)
      exact (pow_eq_zero_iff (by norm_num)).mp hzero
    have hsum0 : ((bucket entries d).map
        (fun e => nanToNum e.val - meanAdjusted entries d)).sum = 0 := by
      apply List.sum_eq_zero
      intro x hx
      obtain ⟨e, he, rfl⟩ := List.mem_map.mp hx
      exact hall e he
    have hneg := sum_dev_eq_neg_one entries d hd
    rw [hsum0] at hneg
    norm_num at hneg

theorem sigma_pos (entries : List MEntry) (d : Nat)
    (hd : distanceCount entries d ≠ 0) : 0 < sigma entries d :=
  Real.sqrt_pos.mpr (sigma2_pos entries d hd)

theorem distanceCount_ne_zero_of_mem {entries : List MEntry} {e : MEntry}
    (he : e ∈ entries) : distanceCount entries (entryDistance e) ≠ 0 := by
  unfold distanceCount
  have hmem : e ∈ bucket entries (entryDistance e) :=
    List.mem_filter.mpr ⟨he, by simp⟩
  intro hlen
  rw [List.length_eq_zero] at hlen
  rw [hlen] at hmem
  simp at hmem

/-- C4 counterexample: on the input with a NaN entry at (0,1) and the value 5
at (2,3), the z-score matrix STORES a NaN entry at (0,1) — the final
numerator is the original (uncleaned) value, so the NaN is neither treated
as 0 in the output nor excluded, contradicting `every entry present is a
finite number`. -/
theorem C4_counterexample :
    (compute_zscore_matrix [⟨0, 1, none⟩, ⟨2, 3, some 5⟩]).head? =
        some ⟨0, 1, none⟩
  ∧ ¬ (∀ e2 ∈ compute_zscore_matrix [⟨0, 1, none⟩, ⟨2, 3, some 5⟩],
        e2.val ≠ none) := by
  have hcomp : compute_zscore_matrix [⟨0, 1, none⟩, ⟨2, 3, some 5⟩] =
      (⟨0, 1, none⟩ : MEntry) ::
        [zscoreEntry [⟨0, 1, none⟩, ⟨2, 3, some 5⟩] ⟨2, 3, some 5⟩] := rfl
  constructor
  · rw [hcomp]
    rfl
  · intro hall
    have hmem : (⟨0, 1, none⟩ : MEntry) ∈
        compute_zscore_matrix [⟨0, 1, none⟩, ⟨2, 3, some 5⟩] := by
      rw [hcomp]
      exact List.mem_cons_self _ _
    exact hall ⟨0, 1, none⟩ hmem rfl

/-- C4 (amended): the z-score matrix keeps exactly the input's stored
positions, and when the input has no NaN value every stored output value is
finite — the `+1` initialization of every distance sum forces `σ_d > 0` for
every distance that occurs, so no division by zero can arise; a NaN input
value, however, is reproduced as a NaN output entry at its own position
(shown by the counterexample), not excluded. -/
theorem C4_finite_output_of_no_nan (entries : List MEntry)
    (h : ∀ e ∈ entries, e.val ≠ none) :
    ((compute_zscore_matrix entries).map (fun e => (e.row, e.col)) =
        entries.map (fun e => (e.row, e.col)))
  ∧ ∀ e2 ∈ compute_zscore_matrix entries, e2.val ≠ none := by
  constructor
  · unfold compute_zscore_matrix
    rw [List.map_map]
    apply List.map_congr_left
    intro e _
    rfl
  · intro e2 he2
    obtain ⟨e, he, rfl⟩ := List.mem_map.mp he2
    have hsig : sigma entries (entryDistance e) ≠ 0 :=
      ne_of_gt (sigma_pos entries (entryDistance e) (distanceCount_ne_zero_of_mem he))
    cases hev : e.val with
    | none => exact absurd hev (h e he)
    | some v =>
      unfold zscoreEntry
      rw [hev]
      simp only [if_neg hsig]
      exact fun hcon => Option.noConfusion hcon

/-- Witness for C4 (amended) at the NaN-free input `[(0,1) ↦ 5]`. -/
theorem C4_finite_output_of_no_nan_witness :
    ((compute_zscore_matrix [⟨0, 1, some 5⟩]).map (fun e => (e.row, e.col)) =
        [(⟨0, 1, some 5⟩ : MEntry)].map (fun e => (e.row, e.col)))
  ∧ ∀ e2 ∈ compute_zscore_matrix [⟨0, 1, some 5⟩], e2.val ≠ none :=
  C4_finite_output_of_no_nan [⟨0, 1, some 5⟩]
    (by
      intro e he
      rcases List.mem_singleton.mp he with rfl
      exact fun hcon => Option.noConfusion hcon)

theorem filterMap_eq_map_of_some {α β : Type} (l : List α) (g : α → Option β)
    (h : α → β) (hg : ∀ a ∈ l, g a = some (h a)) : l.filterMap g = l.map h := by
  induction l with
  | nil => rfl
  | cons a l ih =>
    rw [List.filterMap_cons, hg a (List.mem_cons_self a l), List.map_cons,
      ih (fun a ha => hg a (List.mem_cons_of_mem _ ha))]

/-- Under a NaN-free input, the finite z-scores stored at distance `d` are
exactly the bucket's values, centered at the adjusted mean and divided by
sigma. -/
theorem zscoresAtDistance_eq (entries : List MEntry) (d : Nat)
    (hn : ∀ e ∈ entries, e.val ≠ none) :
    zscoresAtDistance entries d =
      (bucket entries d).map
        (fun e => (nanToNum e.val - meanAdjusted entries d) / sigma entries d) := by
  unfold zscoresAtDistance compute_zscore_matrix
  rw [List.filter_map, List.filterMap_map]
  have hfil : entries.filter
      ((fun e => decide (entryDistance e = d)) ∘ zscoreEntry entries) =
      bucket entries d := by
    apply List.filter_congr
    intro e _
    rfl
  rw [hfil]
  apply filterMap_eq_map_of_some
  intro e he
  have hein : e ∈ entries := List.mem_of_mem_filter he
  have hdist : entryDistance e = d := by
    have := List.of_mem_filter he
    simpa using this
  have hsig : sigma entries (entryDistance e) ≠ 0 := by
    rw [hdist]
    intro hcon
    have hd : distanceCount entries d ≠ 0 := by
      have := distanceCount_ne_zero_of_mem hein
      rw [hdist] at this
      exact this
    exact absurd hcon (ne_of_gt (sigma_pos entries d hd))
  cases hev : e.val with
  | none => exact absurd hev (hn e hein)
  | some v =>
    show (zscoreEntry entries e).val = _
    unfold zscoreEntry
    rw [hev]
    simp only [if_neg hsig]
    rw [hdist]
    simp [nanToNum, hev]

theorem list_sum_sq_dev (l : List ℝ) (m : ℝ) :
    (l.map (fun x => (x - m) ^ 2)).sum =
      (l.map (fun x => x ^ 2)).sum - 2 * m * l.sum + l.length * m ^ 2 := by
  induction l with
  | nil => simp
  | cons a l ih =>
    simp only [List.map_cons, List.sum_cons, ih, List.length_cons]
    push_cast
    ring

theorem listVariance_eq_sub (l : List ℝ) :
    listVariance l = (l.map (fun x => x ^ 2)).sum / l.length - listMean l ^ 2 := by
  cases l with
  | nil => simp [listVariance, listMean]
  | cons a t =>
    have hn : ((a :: t).length : ℝ) ≠ 0 := by
      have hpos : (0 : ℝ) < ((a :: t).length : ℝ) := by
        exact_mod_cast Nat.succ_pos t.length
      exact ne_of_gt hpos
    unfold listVariance listMean
    rw [list_sum_sq_dev]
    field_simp
    ring

/-- C8 (amended): at every distance `d` present in a NaN-free matrix, the
stored z-scores have mean exactly `−1/(k·σ_d)` and variance exactly
`1 − (1/(k·σ_d))²`, where `k` is the number of stored entries at distance
`d`.  The `+1` initialization of the distance sums biases both moments: they
approach 0 and 1 only as `k·σ_d` grows, and are far off for small buckets. -/
theorem C8_zscore_moments (entries : List MEntry) (d : Nat)
    (hn : ∀ e ∈ entries, e.val ≠ none) (hd : distanceCount entries d ≠ 0) :
    listMean (zscoresAtDistance entries d) =
      -1 / ((distanceCount entries d : ℝ) * sigma entries d)
  ∧ listVariance (zscoresAtDistance entries d) =
      1 - (1 / ((distanceCount entries d : ℝ) * sigma entries d)) ^ 2 := by
  have hk : ((distanceCount entries d : ℕ) : ℝ) ≠ 0 := by exact_mod_cast hd
  have hs2pos := sigma2_pos entries d hd
  have hsigpos := sigma_pos entries d hd
  have hsig : sigma entries d ≠ 0 := ne_of_gt hsigpos
  have hzs := zscoresAtDistance_eq entries d hn
  have hlen : ((zscoresAtDistance entries d).length : ℝ) =
      ((distanceCount entries d : ℕ) : ℝ) := by
    rw [hzs, List.length_map]
    rfl
  have hsum : (zscoresAtDistance entries d).sum = -1 / sigma entries d := by
    rw [hzs, list_sum_map_div, sum_dev_eq_neg_one entries d hd]
  have hsumsq : ((zscoresAtDistance entries d).map (fun x => x ^ 2)).sum =
      ((distanceCount entries d : ℕ) : ℝ) := by
    rw [hzs, List.map_map]
    have hcomp : ((fun x => x ^ 2) ∘
        fun (e : MEntry) => (nanToNum e.val - meanAdjusted entries d) / sigma entries d) =
        fun (e : MEntry) =>
          (nanToNum e.val - meanAdjusted entries d) ^ 2 / sigma entries d ^ 2 := by
      funext e
      simp [div_pow]
    rw [hcomp, list_sum_map_div]
    have hsq : sigma entries d ^ 2 = sigma2 entries d :=
      Real.sq_sqrt (le_of_lt hs2pos)
    have hdev : ((bucket entries d).map
        (fun e => (nanToNum e.val - meanAdjusted entries d) ^ 2)).sum =
        sigma2 entries d * ((distanceCount entries d : ℕ) : ℝ) := by
      unfold sigma2
      rw [div_mul_cancel₀ _ hk]
    rw [hsq, hdev, mul_comm, mul_div_assoc, div_self (ne_of_gt hs2pos), mul_one]
  constructor
  · unfold listMean
    rw [hsum, hlen]
    field_simp
    ring
  · rw [listVariance_eq_sub, hsumsq, hlen]
    unfold listMean
    rw [hsum, hlen, div_self hk]
    congr 1
    rw [div_div, neg_div, neg_sq, mul_comm (sigma entries d)]

/-- C8 counterexample: for the matrix whose only stored entry is 5 at (0,1),
distance 1 is present (one entry), yet its z-scores are exactly [−1]: the
`+1`-initialized sum gives mean 6, deviation −1, σ = 1, z = (5−6)/1 = −1.
The mean of the z-scores at distance 1 is −1 — not within any tolerance
below 1 of 0 — and their variance is 0, not 1. -/
theorem C8_counterexample :
    distanceCount [⟨0, 1, some 5⟩] 1 = 1
  ∧ zscoresAtDistance [⟨0, 1, some 5⟩] 1 = [(-1 : ℝ)]
  ∧ listMean (zscoresAtDistance [⟨0, 1, some 5⟩] 1) = -1
  ∧ listVariance (zscoresAtDistance [⟨0, 1, some 5⟩] 1) = 0 := by
  have hb : bucket [(⟨0, 1, some 5⟩ : MEntry)] 1 = [⟨0, 1, some 5⟩] := rfl
  have hk : distanceCount [(⟨0, 1, some 5⟩ : MEntry)] 1 = 1 := rfl
  have hS : sumPerDistance [(⟨0, 1, some 5⟩ : MEntry)] 1 = 6 := by
    rw [sumPerDistance, hb]
    simp [nanToNum]
    norm_num
  have hmean : meanAdjusted [(⟨0, 1, some 5⟩ : MEntry)] 1 = 6 := by
    rw [meanAdjusted, hS, hk]
    norm_num
  have hs2 : sigma2 [(⟨0, 1, some 5⟩ : MEntry)] 1 = 1 := by
    rw [sigma2, hb, hk]
    simp [nanToNum, hmean]
    norm_num
  have hsig : sigma [(⟨0, 1, some 5⟩ : MEntry)] 1 = 1 := by
    rw [sigma, hs2, Real.sqrt_one]
  have hzs : zscoresAtDistance [(⟨0, 1, some 5⟩ : MEntry)] 1 = [(-1 : ℝ)] := by
    rw [zscoresAtDistance_eq [(⟨0, 1, some 5⟩ : MEntry)] 1
      (by
        intro e he
        rcases List.mem_singleton.mp he with rfl
        exact fun hcon => Option.noConfusion hcon)]
    rw [hb]
    rw [List.map_singleton, hmean, hsig]
    norm_num [nanToNum]
  refine ⟨hk, hzs, ?_, ?_⟩
  · rw [hzs]
    unfold listMean
    norm_num
  · rw [hzs]
    unfold listVariance listMean
    norm_num

/-- Witness for C8 (amended) at the one-entry matrix `[(0,1) ↦ 5]`,
distance 1. -/
theorem C8_zscore_moments_witness :
    listMean (zscoresAtDistance [⟨0, 1, some 5⟩] 1) =
      -1 / ((distanceCount [(⟨0, 1, some 5⟩ : MEntry)] 1 : ℝ) *
        sigma [⟨0, 1, some 5⟩] 1)
  ∧ listVariance (zscoresAtDistance [⟨0, 1, some 5⟩] 1) =
      1 - (1 / ((distanceCount [(⟨0, 1, some 5⟩ : MEntry)] 1 : ℝ) *
        sigma [⟨0, 1, some 5⟩] 1)) ^ 2 :=
  C8_zscore_moments [⟨0, 1, some 5⟩] 1
    (by
      intro e he
      rcases List.mem_singleton.mp he with rfl
      exact fun hcon => Option.noConfusion hcon)
    (by decide)

end HicDetectLoops
